import Mathlib

/-
  Verification of the tf-scraper program (src/tf-scraper.py) against its
  natural-language specification.

  The program scans a tree of Terraform configuration files, resolves
  interpolated variable references through a precedence chain of scopes,
  and emits one flat record per resource instance.

  Shallow embedding notes:
  * Python strings are modelled as List Char.
  * Python values parsed from HCL (str / int / bool / list / dict) are
    modelled by the inductive type HVal; Python str() is modelled by pyStr.
  * File contents are modelled as their parsed data: a .tfvars file is
    represented by the mapping hcl2.load would produce (the program
    re-reads the file on every lookup, but the file contents never change
    during a run, so the parsed mapping is a faithful model).
  * The mutual recursion get_variable_value / resolve_interpolation can
    recurse unboundedly through the root-scope steps, so the embedding
    carries a fuel parameter that decreases exactly at that recursive
    call; a result of none means the Python program would not have
    returned within that recursion depth.
-/

/-! ## Characters and identifier classes -/

/-- The open-brace character of the reference pattern. -/
def obr : Char := Char.ofNat 123

/-- The close-brace character of the reference pattern. -/
def cbr : Char := Char.ofNat 125

/-- The single-quote character used by Python repr of strings. -/
def squo : Char := Char.ofNat 39

/-- The literal placeholder the program substitutes for unknown names. -/
def nA : List Char := ['N', '/', 'A']

/-- First character of an identifier in the regex: [a-zA-Z_]. -/
def isIdentStart (c : Char) : Bool := c.isAlpha || c = '_'

/-- Subsequent identifier characters in the regex: [a-zA-Z0-9_]. -/
def isIdentChar (c : Char) : Bool := c.isAlphanum || c = '_'

/-- The fixed literal lead-in of the reference pattern: dollar, open
brace, then the four characters of var-dot. -/
def refLead : List Char := ['$', obr, 'v', 'a', 'r', '.']

/-- A valid identifier name as matched by the regex group. -/
def isIdentName (n : String) : Bool :=
  match n.data with
  | [] => false
  | c :: t => isIdentStart c && t.all isIdentChar

/-- The full reference pattern text for a name, as built by the f-string
at line 49 of the source. -/
def mkRef (n : String) : List Char := refLead ++ n.data ++ [cbr]

/-! ## List-of-characters primitives (Python string operations) -/

/-- pat is an initial segment of s. -/
def leadsWith : List Char → List Char → Bool
  | [], _ => true
  | _ :: _, [] => false
  | a :: as, b :: bs => if a = b then leadsWith as bs else false

/-- pat occurs as a contiguous segment somewhere in s. -/
def containsSeg (pat : List Char) : List Char → Bool
  | [] => leadsWith pat []
  | c :: t => leadsWith pat (c :: t) || containsSeg pat t

/-- Splits off the maximal leading run of identifier characters. -/
def takeIdent : List Char → List Char × List Char
  | [] => ([], [])
  | c :: t =>
    if isIdentChar c then
      let p := takeIdent t
      (c :: p.1, p.2)
    else ([], c :: t)

/-- One attempted regex match at the head of s: if s starts with a full
reference pattern, return the captured name and the remainder after the
close brace. Mirrors the regex of line 46 of the source: the identifier
run is greedy, and the close brace is not an identifier character, so
greedy matching with backtracking coincides with maximal-run matching. -/
def matchRefAt (s : List Char) : Option (String × List Char) :=
  if leadsWith refLead s then
    match s.drop 6 with
    | [] => none
    | c :: t =>
      if isIdentStart c then
        match takeIdent t with
        | (run, rest) =>
          match rest with
          | [] => none
          | d :: r => if d = cbr then some (String.mk (c :: run), r) else none
      else none
  else none

/-- Fueled scan for all non-overlapping matches, left to right, trying
each position in turn exactly as the regex engine does.  The fuel is an
embedding artefact: it only needs to be at least the length of the
string, and the wrapper findVarRefs always supplies enough. -/
def findVarRefsG : Nat → List Char → List String
  | _, [] => []
  | 0, _ :: _ => []
  | fuel + 1, c :: t =>
    match matchRefAt (c :: t) with
    | some (n, r) => n :: findVarRefsG fuel r
    | none => findVarRefsG fuel t

/-- re.findall of the reference pattern over the string: the list of
captured names of all non-overlapping matches, in order. -/
def findVarRefs (s : List Char) : List String := findVarRefsG s.length s

/-- Fueled check that every dollar character in the string begins a
complete reference pattern. -/
def wellFormedRefsG : Nat → List Char → Bool
  | _, [] => true
  | 0, _ :: _ => false
  | fuel + 1, c :: t =>
    if c = '$' then
      match matchRefAt (c :: t) with
      | some (_, r) => wellFormedRefsG fuel r
      | none => false
    else wellFormedRefsG fuel t

/-- Every dollar character in the string begins a complete reference
pattern.  Strings produced by substituting dollar-free values into such
a string are reference-free. -/
def wellFormedRefs (s : List Char) : Bool := wellFormedRefsG s.length s

/-- Fueled Python str.replace: replace every non-overlapping occurrence
of pat, scanning left to right.  Fuel at least the length of the subject
string suffices when pat is nonempty. -/
def replaceAllG : Nat → List Char → List Char → List Char → List Char
  | _, [], _, _ => []
  | 0, s, _, _ => s
  | fuel + 1, c :: t, pat, rep =>
    if leadsWith pat (c :: t) then
      rep ++ replaceAllG fuel ((c :: t).drop pat.length) pat rep
    else
      c :: replaceAllG fuel t pat rep

/-- Python str.replace(pat, rep) on s, for nonempty pat. -/
def replaceAll (s pat rep : List Char) : List Char := replaceAllG s.length s pat rep

/-! ## Parsed configuration values -/

/-- A value as produced by hcl2.load: a Python string, int, bool, list or
dict.  Floats do not occur in any claim and are omitted. -/
inductive HVal where
  | str : List Char → HVal
  | num : Int → HVal
  | bool : Bool → HVal
  | list : List HVal → HVal
  | map : List (String × HVal) → HVal

/-- Whether a value is a Python string. -/
def HVal.isStr : HVal → Bool
  | .str _ => true
  | _ => false

mutual

/-- Python repr, as used for elements when str() renders a list or dict. -/
def pyRepr : HVal → List Char
  | .str s => squo :: s ++ [squo]
  | .num n => (toString n).data
  | .bool b => if b then ('T' :: ('r' :: ('u' :: ('e' :: [])))) else ('F' :: ('a' :: ('l' :: ('s' :: ('e' :: [])))))
  | .list xs => '[' :: pyReprList xs ++ [']']
  | .map kvs => obr :: pyReprMap kvs ++ [cbr]

/-- Comma-separated reprs of list elements. -/
def pyReprList : List HVal → List Char
  | [] => []
  | [x] => pyRepr x
  | x :: xs => pyRepr x ++ ',' :: ' ' :: pyReprList xs

/-- Comma-separated regions of dict items. -/
def pyReprMap : List (String × HVal) → List Char
  | [] => []
  | [(k, v)] => squo :: k.data ++ squo :: ':' :: ' ' :: pyRepr v
  | (k, v) :: kvs => squo :: k.data ++ squo :: ':' :: ' ' :: pyRepr v ++ ',' :: ' ' :: pyReprMap kvs

end

/-- Python str() applied to a parsed value, as in line 49 of the source:
a string renders as itself, other values via their textual form. -/
def pyStr : HVal → List Char
  | .str s => s
  | .num n => (toString n).data
  | .bool b => if b then ('T' :: ('r' :: ('u' :: ('e' :: [])))) else ('F' :: ('a' :: ('l' :: ('s' :: ('e' :: [])))))
  | .list xs => '[' :: pyReprList xs ++ [']']
  | .map kvs => obr :: pyReprMap kvs ++ [cbr]

/-- A Python dict keyed by variable or attribute names. -/
abbrev Dict := List (String × HVal)

/-- Python dict key lookup on the association-list model. -/
def lookup? {α : Type} (k : String) : List (String × α) → Option α
  | [] => none
  | (k2, v) :: d => if k = k2 then some v else lookup? k d

/-- The for-loop of lines 15-19 of the source: the override files are
consulted in discovery order, and the first file containing the name
wins.  Each file is represented by the mapping its parse yields. -/
def firstTfvars (var_name : String) : List Dict → Option HVal
  | [] => none
  | tfv :: rest =>
    match lookup? var_name tfv with
    | some v => some v
    | none => firstTfvars var_name rest

/-! ## The interpolation resolver (lines 11-27 and 44-50 of the source) -/

/-- The substitution loop of lines 47-49, parameterised by the lookup
function: for each up-front match, look the name up and replace every
occurrence of its full pattern in the current string with the textual
form of the value.  A lookup returning none (the modelled divergence)
makes the whole loop diverge. -/
def substLoop (g : String → Option HVal) : List String → List Char → Option (List Char)
  | [], value => some value
  | m :: rest, value =>
    match g m with
    | none => none
    | some var_value => substLoop g rest (replaceAll value (mkRef m) (pyStr var_value))

/-- The body of resolve_interpolation, parameterised by the lookup
function: non-strings are returned unchanged; strings have every
up-front match substituted. -/
def resolveCore (g : String → Option HVal) : HVal → Option HVal
  | .str s => (substLoop g (findVarRefs s) s).map HVal.str
  | v => some v

/-- get_variable_value (lines 11-27 of the source): the precedence
chain.  Local scope, then override files in order, then root defaults
(recursively resolved with the same local scope and override set), then
root module arguments (same recursion), then the literal placeholder.
The fuel decreases exactly at the recursive resolution of root values,
the only unbounded recursion in the source; none models divergence. -/
def get_variable_value (fuel : Nat) (var_name : String) (vars : Dict)
    (tfvars_files : List Dict) (root_variables root_main_tf : Dict) : Option HVal :=
  match lookup? var_name vars with
  | some v => some v
  | none =>
    match firstTfvars var_name tfvars_files with
    | some v => some v
    | none =>
      match lookup? var_name root_variables with
      | some v =>
        match fuel with
        | 0 => none
        | f + 1 => resolveCore
            (fun n => get_variable_value f n vars tfvars_files root_variables root_main_tf) v
      | none =>
        match lookup? var_name root_main_tf with
        | some v =>
          match fuel with
          | 0 => none
          | f + 1 => resolveCore
              (fun n => get_variable_value f n vars tfvars_files root_variables root_main_tf) v
        | none => some (HVal.str nA)

/-- resolve_interpolation (lines 44-50 of the source). -/
def resolve_interpolation (fuel : Nat) (value : HVal) (vars : Dict)
    (tfvars_files : List Dict) (root_variables root_main_tf : Dict) : Option HVal :=
  resolveCore
    (fun n => get_variable_value fuel n vars tfvars_files root_variables root_main_tf) value

/-- Termination of the resolver on a value, expressed over the fuel
embedding: some recursion depth suffices for the source program to
return. -/
def ResolveTerminates (value : HVal) (vars : Dict) (tfvars_files : List Dict)
    (root_variables root_main_tf : Dict) : Prop :=
  ∃ fuel v, resolve_interpolation fuel value vars tfvars_files root_variables root_main_tf = some v

/-! ## Resource-type formatting (lines 52-60 of the source) -/

/-- The fixed acronym set of line 53. -/
def acronyms : List String :=
  ["aws", "iam", "kms", "dns", "cname", "lb", "ecr", "ecs", "vpc", "db", "eip", "nat", "acm"]

/-- Python split on underscore: resource_type.split at line 54. -/
def splitUnd : List Char → List (List Char)
  | [] => [[]]
  | c :: t =>
    match splitUnd t with
    | [] => [[]]
    | p :: ps => if c = '_' then [] :: p :: ps else (c :: p) :: ps

/-- Python str.lower for ASCII input. -/
def lowerStr (s : List Char) : List Char := s.map Char.toLower

/-- Python str.upper for ASCII input. -/
def upperStr (s : List Char) : List Char := s.map Char.toUpper

/-- Python str.capitalize: first character upper-cased, all remaining
characters lower-cased. -/
def capitalizeStr : List Char → List Char
  | [] => []
  | c :: t => Char.toUpper c :: t.map Char.toLower

/-- Python join with a single-space separator (line 59). -/
def joinSpace : List (List Char) → List Char
  | [] => []
  | [p] => p
  | p :: ps => p ++ ' ' :: joinSpace ps

/-- format_resource_type (lines 52-60 of the source): underscore
segments are upper-cased when their lower-casing is in the acronym set
and capitalized otherwise, joined by spaces, with one textual correction
for the compound auto-scaling service name. -/
def format_resource_type (resource_type : String) : String :=
  let parts := splitUnd resource_type.data
  let formatted_parts := parts.map (fun part =>
    if acronyms.contains (String.mk (lowerStr part)) then upperStr part else capitalizeStr part)
  String.mk (replaceAll (joinSpace formatted_parts) ("Appautoscaling").data ("AppAutoScaling").data)

/-! ## Resource records (lines 62-83 of the source) -/

/-- One flat record per resource instance.  The two name fields are
always set; the four sizing fields stay none unless the resource kind
fills them (an unset field is written as an empty CSV cell). -/
structure ResourceInfo where
  resource_type : String
  resource_name : String
  instance_type : Option HVal := none
  cpu : Option HVal := none
  memory : Option HVal := none
  storage_size : Option HVal := none

/-- get_resource_info (lines 62-83 of the source).  Python raises
KeyError when the instance name is missing from the instances dict and
diverges when a resolution recurses unboundedly; both failure modes are
modelled as none (neither occurs for records the walker produces, which
draws the names from the keys of the dict it passes). -/
def get_resource_info (fuel : Nat) (resource_type resource_name : String)
    (instances : List (String × Dict)) (vars : Dict) (tfvars_files : List Dict)
    (root_variables root_main_tf : Dict) : Option ResourceInfo :=
  let info0 : ResourceInfo :=
    { resource_type := format_resource_type resource_type
      resource_name := if resource_name = "this" then "" else resource_name }
  let step1 : Option ResourceInfo :=
    if resource_type = "aws_instance" ∨ resource_type = "aws_db_instance" then
      match lookup? resource_name instances with
      | none => none
      | some inst =>
        let raw := (lookup? (if resource_type = "aws_instance" then "instance_type" else "instance_class") inst).getD (HVal.str nA)
        match resolve_interpolation fuel raw vars tfvars_files root_variables root_main_tf with
        | none => none
        | some v => some { info0 with instance_type := some v }
    else some info0
  match step1 with
  | none => none
  | some info1 =>
    let step2 : Option ResourceInfo :=
      if resource_type = "aws_ecs_task_definition" then
        match lookup? resource_name instances with
        | none => none
        | some inst =>
          let rawCpu := (lookup? ("cpu") inst).getD (HVal.str nA)
          let rawMem := (lookup? ("memory") inst).getD (HVal.str nA)
          match resolve_interpolation fuel rawCpu vars tfvars_files root_variables root_main_tf with
          | none => none
          | some vc =>
            match resolve_interpolation fuel rawMem vars tfvars_files root_variables root_main_tf with
            | none => none
            | some vm => some { info1 with cpu := some vc, memory := some vm }
      else some info1
    match step2 with
    | none => none
    | some info2 =>
      if resource_type = "aws_db_instance" then
        match lookup? resource_name instances with
        | none => none
        | some inst =>
          let rawSt := (lookup? ("allocated_storage") inst).getD (HVal.str nA)
          match resolve_interpolation fuel rawSt vars tfvars_files root_variables root_main_tf with
          | none => none
          | some vs => some { info2 with storage_size := some vs }
      else some info2

/-! ## Per-file extraction and error handling (lines 29-42 and 115-129) -/

/-- The parsed variable blocks of a variables declaration file: the list
under the top-level key, each entry a one-or-more-element mapping from
variable name to its attribute dict. -/
abbrev VarBlocks := List (List (String × Dict))

/-- The parsed resource blocks of a configuration file: what the walker
reads from the parse, each block a mapping from resource kind to its
instances, each instance a name with an attribute dict. -/
abbrev ResBlocks := List (List (String × List (String × Dict)))

/-- Python dict insertion: replace the value when the key is present,
append otherwise. -/
def dinsert (k : String) (v : HVal) : Dict → Dict
  | [] => [(k, v)]
  | (k2, v2) :: d => if k2 = k then (k, v) :: d else (k2, v2) :: dinsert k v d

/-- One block of the accumulation loop of lines 36-39: each declared
variable records its default when one is present. -/
def collectBlock : List (String × Dict) → Dict → Dict
  | [], acc => acc
  | (var_name, var_attrs) :: more, acc =>
    match lookup? ("default") var_attrs with
    | some v => dinsert var_name v (collectBlock more acc)
    | none => collectBlock more acc

/-- The accumulation loop of lines 36-39: for each block, for each
declared variable, record its default when one is present. -/
def collectDefaults : VarBlocks → Dict
  | [] => []
  | block :: rest => collectBlock block (collectDefaults rest)

/-- A directory as the scraper sees it: the parse outcome of its
variables declaration file when one exists, and its override files in
glob discovery order, each given by the mapping its parse yields. -/
structure TFDir where
  variablesTF : Option (Except String VarBlocks)
  tfvarsParsed : List Dict

/-- A discovered configuration file: the directory it lives in and the
outcome of parsing it, restricted to its resource blocks, the only part
the walker reads. -/
structure TFFile where
  dir : TFDir
  parsed : Except String ResBlocks

/-- parse_variables (lines 29-42 of the source): an absent declaration
file yields an empty mapping, a malformed one raises, and the override
file paths are returned alongside.  The raised error is NOT caught
here. -/
def parse_variables (d : TFDir) : Except String (Dict × List Dict) :=
  match d.variablesTF with
  | none => Except.ok ([], d.tfvarsParsed)
  | some (Except.error e) => Except.error e
  | some (Except.ok blocks) => Except.ok (collectDefaults blocks, d.tfvarsParsed)

/-- The two inner loops of lines 122-126: one record per instance of
each resource block; none propagates a diverging resolution. -/
def extractInstances (fuel : Nat) (resource_type : String) (names : List String)
    (instances : List (String × Dict)) (vars : Dict) (tfvars_files : List Dict)
    (root_variables root_main_tf : Dict) : Option (List ResourceInfo) :=
  match names with
  | [] => some []
  | nm :: rest =>
    match get_resource_info fuel resource_type nm instances vars tfvars_files root_variables root_main_tf with
    | none => none
    | some info =>
      match extractInstances fuel resource_type rest instances vars tfvars_files root_variables root_main_tf with
      | none => none
      | some infos => some (info :: infos)

/-- One resource block: records of every kind-instances pair in it. -/
def extractBlock (fuel : Nat) (block : List (String × List (String × Dict)))
    (vars : Dict) (tfvars_files : List Dict) (root_variables root_main_tf : Dict) :
    Option (List ResourceInfo) :=
  match block with
  | [] => some []
  | (resource_type, instances) :: rest =>
    match extractInstances fuel resource_type (instances.map Prod.fst) instances vars tfvars_files root_variables root_main_tf with
    | none => none
    | some infos =>
      match extractBlock fuel rest vars tfvars_files root_variables root_main_tf with
      | none => none
      | some more => some (infos ++ more)

/-- All resource blocks of one parsed file. -/
def extractBlocks (fuel : Nat) (blocks : ResBlocks) (vars : Dict)
    (tfvars_files : List Dict) (root_variables root_main_tf : Dict) :
    Option (List ResourceInfo) :=
  match blocks with
  | [] => some []
  | block :: rest =>
    match extractBlock fuel block vars tfvars_files root_variables root_main_tf with
    | none => none
    | some infos =>
      match extractBlocks fuel rest vars tfvars_files root_variables root_main_tf with
      | none => none
      | some more => some (infos ++ more)

/-- get_resources (lines 115-129 of the source).  For each discovered
file the local scope is built OUTSIDE the try block, so a malformed
variables declaration file raises out of the whole loop: the run fails
with that error.  A parse failure of the configuration file itself is
inside the try block: its resources are skipped (the log line is not
modelled) and the loop continues.  The outer none models a diverging
resolution inside the loop body. -/
def get_resources (fuel : Nat) (files : List TFFile)
    (root_variables root_main_tf : Dict) : Option (Except String (List ResourceInfo)) :=
  match files with
  | [] => some (Except.ok [])
  | f :: rest =>
    match parse_variables f.dir with
    | Except.error e => some (Except.error e)
    | Except.ok (vars, tfvars_files) =>
      match f.parsed with
      | Except.error _ => get_resources fuel rest root_variables root_main_tf
      | Except.ok blocks =>
        match extractBlocks fuel blocks vars tfvars_files root_variables root_main_tf with
        | none => none
        | some infos =>
          match get_resources fuel rest root_variables root_main_tf with
          | none => none
          | some (Except.error e) => some (Except.error e)
          | some (Except.ok more) => some (Except.ok (infos ++ more))

/-! ## Predicates used to state the claims -/

/-- A value carries no reference pattern: for a string the scan of the
source regex finds no match, and a non-string is never scanned. -/
def refFree : HVal → Bool
  | .str s => (findVarRefs s).isEmpty
  | _ => true

/-- Every textual rendering that could be substituted out of the four
scope sources is free of the dollar character. -/
def ScopesDollarFree (vars : Dict) (tfvars_files : List Dict)
    (root_variables root_main_tf : Dict) : Prop :=
  (∀ p ∈ vars, '$' ∉ pyStr p.2) ∧
  (∀ d ∈ tfvars_files, ∀ p ∈ d, '$' ∉ pyStr p.2) ∧
  (∀ p ∈ root_variables, '$' ∉ pyStr p.2) ∧
  (∀ p ∈ root_main_tf, '$' ∉ pyStr p.2)

/-- A raw attribute value that is safe to resolve: a non-string, or a
string whose dollars all begin complete reference patterns. -/
def attrWF : HVal → Bool
  | .str s => wellFormedRefs s
  | _ => true

/-- The name is answered by the local scope, an override file, or by the
final placeholder step: the three steps of the chain that return without
recursing. -/
def localOrAbsent (m : String) (vars : Dict) (tfvars_files : List Dict)
    (root_variables root_main_tf : Dict) : Bool :=
  (lookup? m vars).isSome || (firstTfvars m tfvars_files).isSome ||
    (!(lookup? m root_variables).isSome && !(lookup? m root_main_tf).isSome)

/-- The shape invariant behind the no-unresolved-syntax argument: the
string is built from non-dollar characters and complete reference
patterns whose names lie in ms. -/
inductive RefShape (ms : List String) : List Char → Prop
  | nil : RefShape ms []
  | other {c : Char} {s : List Char} : c ≠ '$' → RefShape ms s → RefShape ms (c :: s)
  | ref {n : String} {s : List Char} : isIdentName n = true → n ∈ ms →
      RefShape ms s → RefShape ms (mkRef n ++ s)

/-! ## Lemmas: initial segments -/

theorem leadsWith_eq {p s : List Char} (h : leadsWith p s = true) : s = p ++ s.drop p.length := by
  induction p generalizing s with
  | nil => simp
  | cons a as ih =>
    cases s with
    | nil => simp [leadsWith] at h
    | cons b bs =>
      simp only [leadsWith] at h
      split at h
      · next hab => subst hab; simpa using ih h
      · exact absurd h (by simp)

theorem leadsWith_length {p s : List Char} (h : leadsWith p s = true) : p.length ≤ s.length := by
  have := leadsWith_eq h
  have : s.length = p.length + (s.drop p.length).length := by
    conv_lhs => rw [this]
    simp
  omega

theorem leadsWith_append_self (p t : List Char) : leadsWith p (p ++ t) = true := by
  induction p with
  | nil => rfl
  | cons a as ih => simp [leadsWith, ih]

theorem leadsWith_cons_ne {a b : Char} {p s : List Char} (h : a ≠ b) :
    leadsWith (a :: p) (b :: s) = false := by
  simp [leadsWith, h]

theorem leadsWith_cons_nil (a : Char) (p : List Char) : leadsWith (a :: p) [] = false := rfl

/-! ## Lemmas: identifier runs -/

theorem ident_ne_dollar {c : Char} (h : isIdentChar c = true) : c ≠ '$' := by
  intro hc
  subst hc
  exact absurd h (by decide)

theorem ident_ne_cbr {c : Char} (h : isIdentChar c = true) : c ≠ cbr := by
  intro hc
  subst hc
  exact absurd h (by decide)

theorem identStart_identChar {c : Char} (h : isIdentStart c = true) : isIdentChar c = true := by
  simp only [isIdentStart, Bool.or_eq_true] at h
  rcases h with h | h
  · simp [isIdentChar, Char.isAlphanum, h]
  · simp [isIdentChar, h]

theorem takeIdent_eq (t : List Char) : t = (takeIdent t).1 ++ (takeIdent t).2 := by
  induction t with
  | nil => rfl
  | cons c t ih =>
    by_cases hc : isIdentChar c = true
    · simp only [takeIdent, hc, if_pos]
      exact congrArg (c :: ·) ih
    · simp [takeIdent, hc]

theorem takeIdent_all (t : List Char) : ∀ c ∈ (takeIdent t).1, isIdentChar c = true := by
  induction t with
  | nil => simp [takeIdent]
  | cons c t ih =>
    by_cases hc : isIdentChar c = true
    · simp only [takeIdent, hc, if_pos]
      intro d hd
      rcases List.mem_cons.mp hd with h | h
      · exact h ▸ hc
      · exact ih d h
    · simp [takeIdent, hc]

theorem takeIdent_run {u : List Char} {d : Char} {y : List Char}
    (hu : ∀ c ∈ u, isIdentChar c = true) (hd : isIdentChar d = false) :
    takeIdent (u ++ d :: y) = (u, d :: y) := by
  induction u with
  | nil => simp [takeIdent, hd]
  | cons c u ih =>
    have hc : isIdentChar c = true := hu c (List.mem_cons_self c u)
    have := ih (fun x hx => hu x (List.mem_cons_of_mem c hx))
    simp [takeIdent, hc, this]

/-! ## Lemmas: single regex matches -/

theorem matchRefAt_some {s : List Char} {n : String} {r : List Char}
    (h : matchRefAt s = some (n, r)) : s = mkRef n ++ r ∧ isIdentName n = true := by
  unfold matchRefAt at h
  split at h
  case isFalse => exact absurd h (by simp)
  case isTrue hlead =>
    have hs := leadsWith_eq hlead
    split at h
    · exact absurd h (by simp)
    · next c t hdrop =>
      split at h
      on_goal 2 => exact absurd h (by simp)
      next hc =>
        rcases htake : takeIdent t with ⟨run, rest⟩
        rw [htake] at h
        dsimp only at h
        rcases rest with _ | ⟨d, r2⟩
        · exact absurd h (by simp)
        · dsimp only at h
          split at h
          · next hd =>
            subst hd
            rw [Option.some_inj, Prod.mk.injEq] at h
            obtain ⟨hn, hr⟩ := h
            have ht : t = run ++ cbr :: r2 := by
              have h2 := takeIdent_eq t
              rw [htake] at h2
              exact h2
            have hrun : ∀ x ∈ run, isIdentChar x = true := by
              intro x hx
              have h3 := takeIdent_all t
              rw [htake] at h3
              exact h3 x hx
            have hlen : refLead.length = 6 := rfl
            constructor
            · calc s = refLead ++ List.drop refLead.length s := hs
                _ = refLead ++ (c :: t) := by rw [hlen, hdrop]
                _ = refLead ++ (c :: (run ++ cbr :: r2)) := by rw [ht]
                _ = mkRef n ++ r := by rw [← hn, ← hr]; simp [mkRef]
            · rw [← hn]
              simp only [isIdentName]
              simp [hc, List.all_eq_true]
              exact hrun
          · exact absurd h (by simp)

theorem matchRefAt_length {s : List Char} {n : String} {r : List Char}
    (h : matchRefAt s = some (n, r)) : r.length < s.length := by
  obtain ⟨hs, _⟩ := matchRefAt_some h
  rw [hs]
  simp [mkRef]
  omega

theorem identName_parts {a : String} (ha : isIdentName a = true) :
    ∃ c cs, a.data = c :: cs ∧ isIdentStart c = true ∧ ∀ ch ∈ cs, isIdentChar ch = true := by
  rcases hd : a.data with _ | ⟨c, cs⟩
  · rw [isIdentName, hd] at ha
    exact absurd ha (by simp)
  · rw [isIdentName, hd] at ha
    simp only [Bool.and_eq_true, List.all_eq_true] at ha
    exact ⟨c, cs, rfl, ha.1, ha.2⟩

theorem mk_data (a : String) : String.mk a.data = a := rfl

theorem matchRefAt_mkRef {a : String} (ha : isIdentName a = true) (x : List Char) :
    matchRefAt (mkRef a ++ x) = some (a, x) := by
  obtain ⟨c, cs, hdata, hstart, hall⟩ := identName_parts ha
  have hmk : mkRef a ++ x = refLead ++ (c :: (cs ++ cbr :: x)) := by
    rw [mkRef, hdata]
    simp
  have hlead : leadsWith refLead (mkRef a ++ x) = true := by
    rw [hmk]
    exact leadsWith_append_self _ _
  have hdrop : (mkRef a ++ x).drop 6 = c :: (cs ++ cbr :: x) := by
    rw [hmk]
    have h6 : (6 : Nat) = refLead.length := rfl
    rw [h6, List.drop_left]
  unfold matchRefAt
  rw [if_pos hlead, hdrop]
  dsimp only
  rw [if_pos hstart]
  rw [takeIdent_run hall (by decide)]
  dsimp only
  rw [if_pos rfl, ← hdata, mk_data]

theorem matchRefAt_not_dollar {c : Char} (t : List Char) (hc : c ≠ '$') :
    matchRefAt (c :: t) = none := by
  unfold matchRefAt
  rw [if_neg]
  rw [refLead]
  simp [leadsWith_cons_ne (Ne.symm hc)]

/-! ## Lemmas: step equations for the fueled scanners -/

theorem findVarRefsG_stable : ∀ fuel fuel2 : Nat, ∀ s : List Char, s.length ≤ fuel →
    s.length ≤ fuel2 → findVarRefsG fuel s = findVarRefsG fuel2 s := by
  intro fuel
  induction fuel with
  | zero =>
    intro fuel2 s h _
    have : s = [] := List.eq_nil_of_length_eq_zero (Nat.le_zero.mp h)
    subst this
    cases fuel2 <;> rfl
  | succ f ih =>
    intro fuel2 s h h2
    cases s with
    | nil => cases fuel2 <;> rfl
    | cons c t =>
      cases fuel2 with
      | zero => simp at h2
      | succ f2 =>
        simp only [findVarRefsG]
        cases hm : matchRefAt (c :: t) with
        | none =>
          exact ih f2 t (by simp at h; omega) (by simp at h2; omega)
        | some p =>
          obtain ⟨n, r⟩ := p
          have hlen := matchRefAt_length hm
          dsimp only
          rw [ih f2 r (by simp at h hlen ⊢; omega) (by simp at h2 hlen ⊢; omega)]

theorem findVarRefs_found {c : Char} {t : List Char} {n : String} {r : List Char}
    (hm : matchRefAt (c :: t) = some (n, r)) : findVarRefs (c :: t) = n :: findVarRefs r := by
  have hlen := matchRefAt_length hm
  unfold findVarRefs
  have h1 : (c :: t).length = t.length + 1 := by simp
  rw [h1]
  simp only [findVarRefsG, hm]
  rw [findVarRefsG_stable t.length r.length r (by simp at hlen; omega) (le_refl _)]

theorem findVarRefs_skip {c : Char} {t : List Char}
    (hm : matchRefAt (c :: t) = none) : findVarRefs (c :: t) = findVarRefs t := by
  unfold findVarRefs
  have h1 : (c :: t).length = t.length + 1 := by simp
  rw [h1]
  simp only [findVarRefsG, hm]

theorem wellFormedRefsG_stable : ∀ fuel fuel2 : Nat, ∀ s : List Char, s.length ≤ fuel →
    s.length ≤ fuel2 → wellFormedRefsG fuel s = wellFormedRefsG fuel2 s := by
  intro fuel
  induction fuel with
  | zero =>
    intro fuel2 s h _
    have : s = [] := List.eq_nil_of_length_eq_zero (Nat.le_zero.mp h)
    subst this
    cases fuel2 <;> rfl
  | succ f ih =>
    intro fuel2 s h h2
    cases s with
    | nil => cases fuel2 <;> rfl
    | cons c t =>
      cases fuel2 with
      | zero => simp at h2
      | succ f2 =>
        simp only [wellFormedRefsG]
        by_cases hc : c = '$'
        · rw [if_pos hc, if_pos hc]
          cases hm : matchRefAt (c :: t) with
          | none => rfl
          | some p =>
            obtain ⟨n, r⟩ := p
            have hlen := matchRefAt_length hm
            exact ih f2 r (by simp at h hlen ⊢; omega) (by simp at h2 hlen ⊢; omega)
        · rw [if_neg hc, if_neg hc]
          exact ih f2 t (by simp at h; omega) (by simp at h2; omega)

theorem wellFormedRefs_found {c : Char} {t : List Char} {n : String} {r : List Char}
    (hc : c = '$') (hm : matchRefAt (c :: t) = some (n, r)) :
    wellFormedRefs (c :: t) = wellFormedRefs r := by
  have hlen := matchRefAt_length hm
  unfold wellFormedRefs
  have h1 : (c :: t).length = t.length + 1 := by simp
  rw [h1]
  simp only [wellFormedRefsG, if_pos hc, hm]
  exact wellFormedRefsG_stable t.length r.length r (by simp at hlen; omega) (le_refl _)

theorem wellFormedRefs_skip {c : Char} {t : List Char} (hc : c ≠ '$') :
    wellFormedRefs (c :: t) = wellFormedRefs t := by
  unfold wellFormedRefs
  have h1 : (c :: t).length = t.length + 1 := by simp
  rw [h1]
  simp only [wellFormedRefsG, if_neg hc]

theorem wellFormedRefs_bad {c : Char} {t : List Char} (hc : c = '$')
    (hm : matchRefAt (c :: t) = none) : wellFormedRefs (c :: t) = false := by
  unfold wellFormedRefs
  have h1 : (c :: t).length = t.length + 1 := by simp
  rw [h1]
  simp only [wellFormedRefsG, if_pos hc, hm]

theorem replaceAllG_stable : ∀ fuel fuel2 : Nat, ∀ s pat rep : List Char, pat ≠ [] →
    s.length ≤ fuel → s.length ≤ fuel2 →
    replaceAllG fuel s pat rep = replaceAllG fuel2 s pat rep := by
  intro fuel
  induction fuel with
  | zero =>
    intro fuel2 s pat rep _ h _
    have : s = [] := List.eq_nil_of_length_eq_zero (Nat.le_zero.mp h)
    subst this
    cases fuel2 <;> rfl
  | succ f ih =>
    intro fuel2 s pat rep hpat h h2
    cases s with
    | nil => cases fuel2 <;> rfl
    | cons c t =>
      cases fuel2 with
      | zero => simp at h2
      | succ f2 =>
        simp only [replaceAllG]
        by_cases hl : leadsWith pat (c :: t) = true
        · rw [if_pos hl, if_pos hl]
          have hplen : 1 ≤ pat.length := by
            cases pat with
            | nil => exact absurd rfl hpat
            | cons p ps => simp
          have hlen : ((c :: t).drop pat.length).length ≤ t.length := by
            simp
            omega
          rw [ih f2 _ pat rep hpat (by simp at h ⊢; omega) (by simp at h2 hlen ⊢; omega)]
        · rw [if_neg hl, if_neg hl]
          rw [ih f2 t pat rep hpat (by simp at h; omega) (by simp at h2; omega)]

theorem replaceAll_lead {s pat rep : List Char} (hpat : pat ≠ [])
    (hl : leadsWith pat s = true) :
    replaceAll s pat rep = rep ++ replaceAll (s.drop pat.length) pat rep := by
  cases s with
  | nil =>
    cases pat with
    | nil => exact absurd rfl hpat
    | cons p ps => exact absurd hl (by simp [leadsWith_cons_nil])
  | cons c t =>
    unfold replaceAll
    have h1 : (c :: t).length = t.length + 1 := by simp
    rw [h1]
    simp only [replaceAllG, if_pos hl]
    have hplen : 1 ≤ pat.length := by
      cases pat with
      | nil => exact absurd rfl hpat
      | cons p ps => simp
    have hlen : ((c :: t).drop pat.length).length ≤ t.length := by
      simp
      omega
    rw [replaceAllG_stable t.length ((c :: t).drop pat.length).length _ pat rep hpat hlen (le_refl _)]

theorem replaceAll_nolead {c : Char} {t pat rep : List Char}
    (hl : leadsWith pat (c :: t) = false) :
    replaceAll (c :: t) pat rep = c :: replaceAll t pat rep := by
  unfold replaceAll
  have h1 : (c :: t).length = t.length + 1 := by simp
  rw [h1]
  simp only [replaceAllG, hl]
  simp

/-! ## Lemmas: reference patterns are mutually exclusive segments -/

theorem mkRef_cons (n : String) :
    mkRef n = '$' :: (obr :: 'v' :: 'a' :: 'r' :: '.' :: (n.data ++ [cbr])) := rfl

theorem mkRef_ne_nil (n : String) : mkRef n ≠ [] := by
  rw [mkRef_cons]
  simp

theorem mkRef_tail_dollarFree {n : String} (hn : isIdentName n = true) :
    '$' ∉ obr :: 'v' :: 'a' :: 'r' :: '.' :: (n.data ++ [cbr]) := by
  obtain ⟨c, cs, hdata, hstart, hall⟩ := identName_parts hn
  intro hmem
  simp only [List.mem_cons, List.mem_append, List.mem_singleton] at hmem
  rcases hmem with h | h | h | h | h | h | h
  · exact absurd h.symm (by decide)
  · exact absurd h.symm (by decide)
  · exact absurd h.symm (by decide)
  · exact absurd h.symm (by decide)
  · exact absurd h.symm (by decide)
  · rw [hdata] at h
    rcases List.mem_cons.mp h with h2 | h2
    · exact ident_ne_dollar (identStart_identChar hstart) h2.symm
    · exact ident_ne_dollar (hall _ h2) rfl
  · exact absurd h (by decide)

theorem leadsWith_append_both (p u w : List Char) :
    leadsWith (p ++ u) (p ++ w) = leadsWith u w := by
  induction p with
  | nil => rfl
  | cons a as ih => simp [leadsWith, ih]

theorem ident_cbr_lead {u v w : List Char}
    (hu : ∀ c ∈ u, isIdentChar c = true) (hv : ∀ c ∈ v, isIdentChar c = true)
    (h : leadsWith (u ++ [cbr]) (v ++ cbr :: w) = true) : u = v := by
  induction u generalizing v with
  | nil =>
    cases v with
    | nil => rfl
    | cons d v2 =>
      have hd : isIdentChar d = true := hv d (List.mem_cons_self d v2)
      rw [List.nil_append, List.cons_append] at h
      rw [leadsWith_cons_ne (Ne.symm (ident_ne_cbr hd))] at h
      exact absurd h (by simp)
  | cons a u2 ih =>
    cases v with
    | nil =>
      have ha : isIdentChar a = true := hu a (List.mem_cons_self a u2)
      rw [List.cons_append, List.nil_append] at h
      rw [leadsWith_cons_ne (ident_ne_cbr ha)] at h
      exact absurd h (by simp)
    | cons d v2 =>
      rw [List.cons_append, List.cons_append] at h
      simp only [leadsWith] at h
      split at h
      · next had =>
        subst had
        have := ih (fun x hx => hu x (List.mem_cons_of_mem a hx))
          (fun x hx => hv x (List.mem_cons_of_mem a hx)) h
        rw [this]
      · exact absurd h (by simp)

theorem mkRef_not_lead {m n : String} (hm : isIdentName m = true)
    (hn : isIdentName n = true) (hne : m ≠ n) (t : List Char) :
    leadsWith (mkRef m) (mkRef n ++ t) = false := by
  cases hl : leadsWith (mkRef m) (mkRef n ++ t) with
  | false => rfl
  | true =>
    exfalso
    have hshape : mkRef n ++ t = refLead ++ (n.data ++ cbr :: t) := by
      rw [mkRef]
      simp
    have hm2 : mkRef m = refLead ++ (m.data ++ [cbr]) := by
      rw [mkRef]
      simp
    rw [hshape, hm2, leadsWith_append_both] at hl
    obtain ⟨cm, csm, hdm, hsm, ham⟩ := identName_parts hm
    obtain ⟨cn, csn, hdn, hsn, han⟩ := identName_parts hn
    have hmv : ∀ c ∈ m.data, isIdentChar c = true := by
      rw [hdm]
      intro x hx
      rcases List.mem_cons.mp hx with h | h
      · exact h ▸ identStart_identChar hsm
      · exact ham x h
    have hnv : ∀ c ∈ n.data, isIdentChar c = true := by
      rw [hdn]
      intro x hx
      rcases List.mem_cons.mp hx with h | h
      · exact h ▸ identStart_identChar hsn
      · exact han x h
    have := ident_cbr_lead hmv hnv hl
    exact hne (by rw [← mk_data m, ← mk_data n, this])

/-! ## Lemmas: replaceAll over segment shapes -/

theorem replaceAll_skip_dollarFree {u t rep : List Char} {m : String} (hu : '$' ∉ u) :
    replaceAll (u ++ t) (mkRef m) rep = u ++ replaceAll t (mkRef m) rep := by
  induction u with
  | nil => simp
  | cons d u2 ih =>
    have hd : d ≠ '$' := fun h => hu (h ▸ List.mem_cons_self d u2)
    have hl : leadsWith (mkRef m) (d :: (u2 ++ t)) = false := by
      rw [mkRef_cons]
      exact leadsWith_cons_ne (Ne.symm hd)
    rw [List.cons_append, replaceAll_nolead hl, ih (fun h => hu (List.mem_cons_of_mem d h))]
    rfl

theorem replaceAll_ref_self (m : String) (t rep : List Char) :
    replaceAll (mkRef m ++ t) (mkRef m) rep = rep ++ replaceAll t (mkRef m) rep := by
  rw [replaceAll_lead (mkRef_ne_nil m) (leadsWith_append_self _ _), List.drop_left]

theorem replaceAll_ref_other {m n : String} (hm : isIdentName m = true)
    (hn : isIdentName n = true) (hne : m ≠ n) (t rep : List Char) :
    replaceAll (mkRef n ++ t) (mkRef m) rep = mkRef n ++ replaceAll t (mkRef m) rep := by
  have hl : leadsWith (mkRef m) (mkRef n ++ t) = false := mkRef_not_lead hm hn hne t
  have hshape : mkRef n ++ t = '$' :: ((obr :: 'v' :: 'a' :: 'r' :: '.' :: (n.data ++ [cbr])) ++ t) := by
    rw [mkRef_cons]
    simp
  rw [hshape] at hl ⊢
  rw [replaceAll_nolead hl]
  rw [replaceAll_skip_dollarFree (mkRef_tail_dollarFree hn)]
  simp [mkRef_cons, List.cons_append, List.append_assoc]

/-! ## Lemmas: the segment-shape invariant -/

theorem refShape_mono {ms ms2 : List String} {s : List Char} (h : RefShape ms s)
    (hsub : ∀ n, n ∈ ms → n ∈ ms2) : RefShape ms2 s := by
  induction h with
  | nil => exact .nil
  | other hc _ ih => exact .other hc ih
  | ref hid hmem _ ih => exact .ref hid (hsub _ hmem) ih

theorem refShape_nil_dollarFree {s : List Char} (h : RefShape [] s) : '$' ∉ s := by
  induction h with
  | nil => simp
  | other hc _ ih =>
    intro hmem
    rcases List.mem_cons.mp hmem with h2 | h2
    · exact hc h2.symm
    · exact ih h2
  | ref _ hmem _ _ => exact absurd hmem (List.not_mem_nil _)

theorem refShape_append_dollarFree {u s : List Char} {ms : List String}
    (hu : '$' ∉ u) (h : RefShape ms s) : RefShape ms (u ++ s) := by
  induction u with
  | nil => exact h
  | cons d u2 ih =>
    have hd : d ≠ '$' := by
      intro heq
      exact hu (heq ▸ List.mem_cons_self d u2)
    exact .other hd (ih (fun h2 => hu (List.mem_cons_of_mem d h2)))

theorem refShape_replaceAll {ms : List String} {s : List Char} {m : String} {rep : List Char}
    (h : RefShape ms s) (hm : isIdentName m = true) (hrep : '$' ∉ rep) :
    RefShape (ms.filter (fun x => x != m)) (replaceAll s (mkRef m) rep) := by
  induction h with
  | nil => exact .nil
  | @other c s2 hc _ ih =>
    have hl : leadsWith (mkRef m) (c :: s2) = false := by
      rw [mkRef_cons]
      exact leadsWith_cons_ne (Ne.symm hc)
    rw [replaceAll_nolead hl]
    exact .other hc ih
  | @ref n s2 hid hmem _ ih =>
    by_cases heq : n = m
    · subst heq
      rw [replaceAll_ref_self]
      exact refShape_append_dollarFree hrep ih
    · rw [replaceAll_ref_other hm hid (Ne.symm heq)]
      refine .ref hid ?_ ih
      rw [List.mem_filter]
      exact ⟨hmem, by simp [heq]⟩

theorem wellFormed_refShape : ∀ fuel : Nat, ∀ s : List Char, s.length ≤ fuel →
    wellFormedRefs s = true → RefShape (findVarRefs s) s := by
  intro fuel
  induction fuel with
  | zero =>
    intro s h _
    have : s = [] := List.eq_nil_of_length_eq_zero (Nat.le_zero.mp h)
    subst this
    exact .nil
  | succ f ih =>
    intro s h hwf
    cases s with
    | nil => exact .nil
    | cons c t =>
      by_cases hc : c = '$'
      · subst hc
        cases hm : matchRefAt ('$' :: t) with
        | none =>
          rw [wellFormedRefs_bad rfl hm] at hwf
          exact absurd hwf (by simp)
        | some p =>
          obtain ⟨n, r⟩ := p
          obtain ⟨hs, hid⟩ := matchRefAt_some hm
          rw [wellFormedRefs_found rfl hm] at hwf
          rw [findVarRefs_found hm]
          have hlen := matchRefAt_length hm
          have hr := ih r (by simp at h hlen; omega) hwf
          rw [hs]
          exact .ref hid (List.mem_cons_self _ _)
            (refShape_mono hr (fun x hx => List.mem_cons_of_mem _ hx))
      · have hm : matchRefAt (c :: t) = none := matchRefAt_not_dollar t hc
        rw [wellFormedRefs_skip hc] at hwf
        rw [findVarRefs_skip hm]
        exact .other hc (ih t (by simp at h; omega) hwf)

theorem findVarRefs_ident : ∀ fuel : Nat, ∀ s : List Char, s.length ≤ fuel →
    ∀ n ∈ findVarRefs s, isIdentName n = true := by
  intro fuel
  induction fuel with
  | zero =>
    intro s h
    have : s = [] := List.eq_nil_of_length_eq_zero (Nat.le_zero.mp h)
    subst this
    simp [findVarRefs, findVarRefsG]
  | succ f ih =>
    intro s h n hn
    cases s with
    | nil => exact absurd hn (by simp [findVarRefs, findVarRefsG] at *)
    | cons c t =>
      cases hm : matchRefAt (c :: t) with
      | none =>
        rw [findVarRefs_skip hm] at hn
        exact ih t (by simp at h; omega) n hn
      | some p =>
        obtain ⟨n2, r⟩ := p
        obtain ⟨_, hid⟩ := matchRefAt_some hm
        have hlen := matchRefAt_length hm
        rw [findVarRefs_found hm] at hn
        rcases List.mem_cons.mp hn with h2 | h2
        · exact h2 ▸ hid
        · exact ih r (by simp at h hlen; omega) n h2

theorem findVarRefs_dollarFree : ∀ s : List Char, '$' ∉ s → findVarRefs s = [] := by
  intro s
  induction s with
  | nil => intro _; rfl
  | cons c t ih =>
    intro h
    have hc : c ≠ '$' := by
      intro heq
      exact h (heq ▸ List.mem_cons_self c t)
    rw [findVarRefs_skip (matchRefAt_not_dollar t hc)]
    exact ih (fun h2 => h (List.mem_cons_of_mem c h2))

/-! ## Lemmas: the resolver preserves dollar-freeness -/

theorem lookup?_mem {α : Type} {k : String} {v : α} :
    ∀ {d : List (String × α)}, lookup? k d = some v → (k, v) ∈ d := by
  intro d
  induction d with
  | nil => intro h; exact absurd h (by simp [lookup?])
  | cons p d ih =>
    intro h
    obtain ⟨k2, v2⟩ := p
    rw [lookup?] at h
    split at h
    · next heq =>
      rw [Option.some_inj] at h
      subst heq
      subst h
      exact List.mem_cons_self _ _
    · exact List.mem_cons_of_mem _ (ih h)

theorem firstTfvars_mem {k : String} {v : HVal} :
    ∀ {files : List Dict}, firstTfvars k files = some v →
    ∃ d ∈ files, lookup? k d = some v := by
  intro files
  induction files with
  | nil => intro h; exact absurd h (by simp [firstTfvars])
  | cons d files ih =>
    intro h
    rw [firstTfvars] at h
    cases hl : lookup? k d with
    | some w =>
      rw [hl] at h
      rw [Option.some_inj] at h
      subst h
      exact ⟨d, List.mem_cons_self _ _, hl⟩
    | none =>
      rw [hl] at h
      obtain ⟨d2, hd2, hlk⟩ := ih h
      exact ⟨d2, List.mem_cons_of_mem _ hd2, hlk⟩

theorem resolveCore_dollarFree {g : String → Option HVal} {v : HVal}
    (h : '$' ∉ pyStr v) : resolveCore g v = some v := by
  cases v with
  | str s =>
    rw [resolveCore]
    rw [findVarRefs_dollarFree s h]
    rfl
  | num n => rfl
  | bool b => rfl
  | list xs => rfl
  | map kvs => rfl

theorem get_variable_value_dollarFree {fuel : Nat} {n : String} {vars : Dict}
    {tfvars_files : List Dict} {rootv rootm : Dict} {v : HVal}
    (hsc : ScopesDollarFree vars tfvars_files rootv rootm)
    (h : get_variable_value fuel n vars tfvars_files rootv rootm = some v) :
    '$' ∉ pyStr v := by
  obtain ⟨h1, h2, h3, h4⟩ := hsc
  rw [get_variable_value] at h
  cases hl : lookup? n vars with
  | some w =>
    simp only [hl, Option.some_inj] at h
    subst h
    exact h1 _ (lookup?_mem hl)
  | none =>
    simp only [hl] at h
    cases hf : firstTfvars n tfvars_files with
    | some w =>
      simp only [hf, Option.some_inj] at h
      subst h
      obtain ⟨d, hd, hlk⟩ := firstTfvars_mem hf
      exact h2 d hd _ (lookup?_mem hlk)
    | none =>
      simp only [hf] at h
      cases hr : lookup? n rootv with
      | some w =>
        simp only [hr] at h
        cases fuel with
        | zero => exact absurd h (by simp)
        | succ f =>
          have hw : '$' ∉ pyStr w := h3 _ (lookup?_mem hr)
          simp only [resolveCore_dollarFree hw, Option.some_inj] at h
          subst h
          exact hw
      | none =>
        simp only [hr] at h
        cases hmm : lookup? n rootm with
        | some w =>
          simp only [hmm] at h
          cases fuel with
          | zero => exact absurd h (by simp)
          | succ f =>
            have hw : '$' ∉ pyStr w := h4 _ (lookup?_mem hmm)
            simp only [resolveCore_dollarFree hw, Option.some_inj] at h
            subst h
            exact hw
        | none =>
          simp only [hmm, Option.some_inj] at h
          subst h
          decide

theorem substLoop_dollarFree {g : String → Option HVal}
    (hg : ∀ m v, g m = some v → '$' ∉ pyStr v) :
    ∀ ms : List String, ∀ value r : List Char,
    (∀ m ∈ ms, isIdentName m = true) → RefShape ms value →
    substLoop g ms value = some r → '$' ∉ r := by
  intro ms
  induction ms with
  | nil =>
    intro value r _ hsh h
    rw [substLoop, Option.some_inj] at h
    subst h
    exact refShape_nil_dollarFree hsh
  | cons m rest ih =>
    intro value r hid hsh h
    rw [substLoop] at h
    cases hgm : g m with
    | none => rw [hgm] at h; exact absurd h (by simp)
    | some v =>
      rw [hgm] at h
      have hdf := hg m v hgm
      have hsh2 : RefShape rest (replaceAll value (mkRef m) (pyStr v)) := by
        have hstep := refShape_replaceAll hsh (hid m (List.mem_cons_self m rest)) hdf
        refine refShape_mono hstep (fun x hx => ?_)
        obtain ⟨hx1, hx2⟩ := List.mem_filter.mp hx
        rcases List.mem_cons.mp hx1 with h2 | h2
        · subst h2
          simp at hx2
        · exact h2
      exact ih _ r (fun x hx => hid x (List.mem_cons_of_mem m hx)) hsh2 h

theorem resolve_interpolation_noRefs {fuel : Nat} {s : List Char} {vars : Dict}
    {tfvars_files : List Dict} {rootv rootm : Dict} {v : HVal}
    (hsc : ScopesDollarFree vars tfvars_files rootv rootm)
    (hwf : wellFormedRefs s = true)
    (h : resolve_interpolation fuel (HVal.str s) vars tfvars_files rootv rootm = some v) :
    ∃ r, v = HVal.str r ∧ '$' ∉ r := by
  rw [resolve_interpolation, resolveCore] at h
  cases hsub : substLoop (fun n => get_variable_value fuel n vars tfvars_files rootv rootm)
      (findVarRefs s) s with
  | none => rw [hsub] at h; exact absurd h (by simp)
  | some r =>
    rw [hsub] at h
    refine ⟨r, ?_, ?_⟩
    · simp at h
      exact h.symm
    · refine substLoop_dollarFree ?_ (findVarRefs s) s r ?_ ?_ hsub
      · intro m w hgw
        exact get_variable_value_dollarFree hsc hgw
      · exact fun m hm => findVarRefs_ident s.length s (le_refl _) m hm
      · exact wellFormed_refShape s.length s (le_refl _) hwf

theorem resolveCore_not_str {g : String → Option HVal} {v : HVal} (h : HVal.isStr v = false) :
    resolveCore g v = some v := by
  cases v with
  | str s => exact absurd h (by simp [HVal.isStr])
  | num n => rfl
  | bool b => rfl
  | list xs => rfl
  | map kvs => rfl

theorem resolve_interpolation_not_str {fuel : Nat} {vars : Dict}
    {tfvars_files : List Dict} {rootv rootm : Dict} (v : HVal) (h : HVal.isStr v = false) :
    resolve_interpolation fuel v vars tfvars_files rootv rootm = some v := by
  rw [resolve_interpolation]
  exact resolveCore_not_str h

theorem resolve_attr_noRefs {fuel : Nat} {raw : HVal} {vars : Dict}
    {tfvars_files : List Dict} {rootv rootm : Dict} {v : HVal}
    (hsc : ScopesDollarFree vars tfvars_files rootv rootm)
    (hwf : attrWF raw = true)
    (h : resolve_interpolation fuel raw vars tfvars_files rootv rootm = some v) :
    refFree v = true := by
  cases raw with
  | str s =>
    obtain ⟨r, hv, hdf⟩ := resolve_interpolation_noRefs hsc hwf h
    subst hv
    simp only [refFree]
    rw [findVarRefs_dollarFree r hdf]
    rfl
  | num n =>
    rw [resolve_interpolation_not_str (HVal.num n) rfl, Option.some_inj] at h
    subst h
    rfl
  | bool b =>
    rw [resolve_interpolation_not_str (HVal.bool b) rfl, Option.some_inj] at h
    subst h
    rfl
  | list xs =>
    rw [resolve_interpolation_not_str (HVal.list xs) rfl, Option.some_inj] at h
    subst h
    rfl
  | map kvs =>
    rw [resolve_interpolation_not_str (HVal.map kvs) rfl, Option.some_inj] at h
    subst h
    rfl

/-! ## Lemmas: termination of the non-recursive chain steps -/

theorem get_variable_value_localOrAbsent {fuel : Nat} {m : String} {vars : Dict}
    {tfvars_files : List Dict} {rootv rootm : Dict}
    (h : localOrAbsent m vars tfvars_files rootv rootm = true) :
    (get_variable_value fuel m vars tfvars_files rootv rootm).isSome = true := by
  rw [get_variable_value]
  rw [localOrAbsent] at h
  cases hl : lookup? m vars with
  | some w => rfl
  | none =>
    cases hf : firstTfvars m tfvars_files with
    | some w => rfl
    | none =>
      simp only [hl, hf, Option.isSome_none, Bool.false_or, Bool.not_eq_true,
        Bool.and_eq_true] at h
      obtain ⟨hr, hmm⟩ := h
      cases hr2 : lookup? m rootv with
      | some w => rw [hr2] at hr; exact absurd hr (by simp)
      | none =>
        cases hm2 : lookup? m rootm with
        | some w => rw [hm2] at hmm; exact absurd hmm (by simp)
        | none => rfl

theorem substLoop_isSome {g : String → Option HVal} :
    ∀ ms : List String, ∀ value : List Char, (∀ m ∈ ms, (g m).isSome = true) →
    ∃ r, substLoop g ms value = some r := by
  intro ms
  induction ms with
  | nil => intro value _; exact ⟨value, rfl⟩
  | cons m rest ih =>
    intro value hg
    rw [substLoop]
    cases hgm : g m with
    | none =>
      have := hg m (List.mem_cons_self m rest)
      rw [hgm] at this
      exact absurd this (by simp)
    | some v =>
      exact ih (replaceAll value (mkRef m) (pyStr v)) (fun x hx => hg x (List.mem_cons_of_mem m hx))

/-! ## Lemmas: divergence on a root-scope self-reference -/

theorem cyc_get_none : ∀ fuel : Nat,
    get_variable_value fuel ("a") [] [] [(("a" : String), HVal.str (mkRef ("a")))] [] = none := by
  intro fuel
  induction fuel using Nat.strong_induction_on with
  | _ fuel ih =>
    cases fuel with
    | zero => rfl
    | succ f =>
      have hfind : findVarRefs (mkRef ("a")) = [("a" : String)] := rfl
      rw [get_variable_value]
      simp [lookup?, firstTfvars, resolveCore, hfind, substLoop, ih f (Nat.lt_succ_self f)]

theorem cyc_resolve_none : ∀ fuel : Nat,
    resolve_interpolation fuel (HVal.str (mkRef ("a"))) [] []
      [(("a" : String), HVal.str (mkRef ("a")))] [] = none := by
  intro fuel
  have hfind : findVarRefs (mkRef ("a")) = [("a" : String)] := rfl
  rw [resolve_interpolation]
  simp [resolveCore, hfind, substLoop, cyc_get_none fuel]

/-! ## Lemmas: resolving a string that is exactly one reference -/

theorem findVarRefs_mkRef_append {n : String} (hid : isIdentName n = true) (x : List Char) :
    findVarRefs (mkRef n ++ x) = n :: findVarRefs x := by
  have hm := matchRefAt_mkRef hid x
  rw [mkRef_cons] at hm ⊢
  rw [List.cons_append]
  rw [List.cons_append] at hm
  rw [findVarRefs_found hm]

theorem findVarRefs_mkRef {n : String} (hid : isIdentName n = true) :
    findVarRefs (mkRef n) = [n] := by
  have h := findVarRefs_mkRef_append hid []
  rw [List.append_nil] at h
  rw [h]
  rfl

theorem replaceAll_mkRef_self (n : String) (rep : List Char) :
    replaceAll (mkRef n) (mkRef n) rep = rep := by
  have h := replaceAll_ref_self n [] rep
  rw [List.append_nil] at h
  rw [h]
  have h2 : replaceAll ([] : List Char) (mkRef n) rep = [] := rfl
  rw [h2, List.append_nil]

theorem resolve_single_ref {fuel : Nat} {n : String} {vars : Dict}
    {tfvars_files : List Dict} {rootv rootm : Dict} {v : HVal}
    (hid : isIdentName n = true)
    (hg : get_variable_value fuel n vars tfvars_files rootv rootm = some v) :
    resolve_interpolation fuel (HVal.str (mkRef n)) vars tfvars_files rootv rootm =
      some (HVal.str (pyStr v)) := by
  rw [resolve_interpolation]
  simp only [resolveCore, findVarRefs_mkRef hid, substLoop, hg]
  rw [replaceAll_mkRef_self]
  rfl

/-! ## Claim theorems -/

/-- C1: for every variable name and every combination of local scope, override
files, root defaults and root module arguments, get_variable_value follows the
precedence chain in order with first match winning: local scope first, then
the override files in discovery order via firstTfvars with the first file
containing the name winning, then root defaults (the value recursively
resolved with the same local scope and override set), then root module
arguments (same recursion), then the literal N/A placeholder.  The fuel
decrement in the root cases is the embedding of the recursive call. -/
theorem get_variable_value_precedence (fuel : Nat) (n : String) (vars : Dict)
    (tfvars_files : List Dict) (rootv rootm : Dict) :
    (∀ v, lookup? n vars = some v →
      get_variable_value fuel n vars tfvars_files rootv rootm = some v) ∧
    (∀ v, lookup? n vars = none → firstTfvars n tfvars_files = some v →
      get_variable_value fuel n vars tfvars_files rootv rootm = some v) ∧
    (∀ v, lookup? n vars = none → firstTfvars n tfvars_files = none →
      lookup? n rootv = some v →
      get_variable_value (fuel + 1) n vars tfvars_files rootv rootm =
        resolve_interpolation fuel v vars tfvars_files rootv rootm) ∧
    (∀ v, lookup? n vars = none → firstTfvars n tfvars_files = none →
      lookup? n rootv = none → lookup? n rootm = some v →
      get_variable_value (fuel + 1) n vars tfvars_files rootv rootm =
        resolve_interpolation fuel v vars tfvars_files rootv rootm) ∧
    (lookup? n vars = none → firstTfvars n tfvars_files = none →
      lookup? n rootv = none → lookup? n rootm = none →
      get_variable_value fuel n vars tfvars_files rootv rootm = some (HVal.str nA)) := by
  refine ⟨?_, ?_, ?_, ?_, ?_⟩
  · intro v h1
    rw [get_variable_value]
    simp only [h1]
  · intro v h1 h2
    rw [get_variable_value]
    simp only [h1, h2]
  · intro v h1 h2 h3
    rw [get_variable_value]
    simp only [h1, h2, h3]
    rfl
  · intro v h1 h2 h3 h4
    rw [get_variable_value]
    simp only [h1, h2, h3, h4]
    rfl
  · intro h1 h2 h3 h4
    rw [get_variable_value]
    simp only [h1, h2, h3, h4]

/-- Witness for C1: the five steps of the chain exercised on concrete scopes. -/
theorem get_variable_value_precedence_witness :
    get_variable_value 0 ("x") [(("x" : String), HVal.num 1)] [] [] [] = some (HVal.num 1) ∧
    get_variable_value 0 ("x") [] [[(("x" : String), HVal.num 2)]] [] [] = some (HVal.num 2) ∧
    get_variable_value 1 ("x") [] [] [(("x" : String), HVal.num 3)] [] =
      resolve_interpolation 0 (HVal.num 3) [] [] [(("x" : String), HVal.num 3)] [] ∧
    get_variable_value 1 ("x") [] [] [] [(("x" : String), HVal.num 4)] =
      resolve_interpolation 0 (HVal.num 4) [] [] [] [(("x" : String), HVal.num 4)] ∧
    get_variable_value 0 ("x") [] [] [] [] = some (HVal.str nA) := by
  refine ⟨?_, ?_, ?_, ?_, ?_⟩
  · exact (get_variable_value_precedence 0 ("x") [(("x" : String), HVal.num 1)] [] [] []).1
      (HVal.num 1) rfl
  · exact (get_variable_value_precedence 0 ("x") [] [[(("x" : String), HVal.num 2)]] [] []).2.1
      (HVal.num 2) rfl rfl
  · exact (get_variable_value_precedence 0 ("x") [] [] [(("x" : String), HVal.num 3)] []).2.2.1
      (HVal.num 3) rfl rfl rfl
  · exact (get_variable_value_precedence 0 ("x") [] [] [] [(("x" : String), HVal.num 4)]).2.2.2.1
      (HVal.num 4) rfl rfl rfl rfl
  · exact (get_variable_value_precedence 0 ("x") [] [] [] []).2.2.2.2 rfl rfl rfl rfl

/-- C6: a referenced name absent from all four sources resolves to the literal
N/A placeholder and raises no error: the chain returns it as a value, and
resolving a string consisting of that reference substitutes the literal text
N/A, at any recursion depth. -/
theorem unresolvable_reference_yields_placeholder (fuel : Nat) (n : String) (vars : Dict)
    (tfvars_files : List Dict) (rootv rootm : Dict)
    (hid : isIdentName n = true)
    (h1 : lookup? n vars = none) (h2 : firstTfvars n tfvars_files = none)
    (h3 : lookup? n rootv = none) (h4 : lookup? n rootm = none) :
    get_variable_value fuel n vars tfvars_files rootv rootm = some (HVal.str nA) ∧
    resolve_interpolation fuel (HVal.str (mkRef n)) vars tfvars_files rootv rootm =
      some (HVal.str nA) := by
  have hg : get_variable_value fuel n vars tfvars_files rootv rootm = some (HVal.str nA) := by
    rw [get_variable_value]
    simp only [h1, h2, h3, h4]
  refine ⟨hg, ?_⟩
  have hr := resolve_single_ref hid hg
  rw [hr]
  rfl

/-- Witness for C6: the undefined name foo resolves to N/A. -/
theorem unresolvable_reference_witness :
    get_variable_value 0 ("foo") [] [] [] [] = some (HVal.str nA) ∧
    resolve_interpolation 0 (HVal.str (mkRef ("foo"))) [] [] [] [] = some (HVal.str nA) :=
  unresolvable_reference_yields_placeholder 0 ("foo") [] [] [] [] (by decide) rfl rfl rfl rfl

/-- C7: resolve_interpolation is the identity on values with nothing to
substitute: a string in which the scan finds no reference pattern is returned
unchanged, and a non-string value is returned unchanged with no recursion
into list or mapping structure. -/
theorem resolve_identity (fuel : Nat) (s : List Char) (v : HVal) (vars : Dict)
    (tfvars_files : List Dict) (rootv rootm : Dict) :
    (findVarRefs s = [] →
      resolve_interpolation fuel (HVal.str s) vars tfvars_files rootv rootm =
        some (HVal.str s)) ∧
    (HVal.isStr v = false →
      resolve_interpolation fuel v vars tfvars_files rootv rootm = some v) := by
  constructor
  · intro h
    rw [resolve_interpolation]
    simp only [resolveCore, h, substLoop]
    rfl
  · exact resolve_interpolation_not_str v

/-- Witness for C7: a plain string and a list value pass through unchanged. -/
theorem resolve_identity_witness :
    resolve_interpolation 0 (HVal.str ['h', 'i']) [] [] [] [] = some (HVal.str ['h', 'i']) ∧
    resolve_interpolation 0 (HVal.list [HVal.num 3]) [] [] [] [] =
      some (HVal.list [HVal.num 3]) := by
  constructor
  · exact (resolve_identity 0 ['h', 'i'] (HVal.num 0) [] [] [] []).1 rfl
  · exact (resolve_identity 0 [] (HVal.list [HVal.num 3]) [] [] [] []).2 rfl

/-- C8 counterexample: format_resource_type is NOT idempotent on its own
output: applied twice to aws_db_instance it yields a different string than
applied once, because Python capitalize lower-cases every character after the
first, so the single space-joined segment AWS DB Instance collapses to
Aws db instance. -/
theorem format_resource_type_not_idempotent_cx :
    format_resource_type (format_resource_type ("aws_db_instance")) = "Aws db instance" ∧
    format_resource_type ("aws_db_instance") = "AWS DB Instance" ∧
    format_resource_type (format_resource_type ("aws_db_instance")) ≠
      format_resource_type ("aws_db_instance") := by
  refine ⟨rfl, rfl, ?_⟩
  decide

/-- C8 amended: format_resource_type is deterministic (it is a pure function
of its input) and maps the two documented examples as stated; idempotency on
its own output does not hold (see the counterexample). -/
theorem format_resource_type_examples :
    format_resource_type ("aws_db_instance") = "AWS DB Instance" ∧
    format_resource_type ("aws_appautoscaling_policy") = "AWS AppAutoScaling Policy" := by
  constructor
  · rfl
  · rfl

/-- C3 counterexample: the claim that resolve terminates whenever a variable
default textually references itself through the precedence chain is false: a
single root-scope variable whose default is exactly its own reference makes
resolve_interpolation recurse unboundedly — no recursion depth returns — even
though this is a direct self-reference, not an indirect multi-variable
cycle. -/
theorem resolve_self_reference_diverges_cx :
    ¬ ResolveTerminates (HVal.str (mkRef ("a"))) [] []
      [(("a" : String), HVal.str (mkRef ("a")))] [] := by
  rintro ⟨fuel, v, h⟩
  rw [cyc_resolve_none fuel] at h
  exact absurd h (by simp)

/-- C3 amended: the matching pass is exhausted once with no re-scan, so
resolution terminates whenever every referenced name is answered without
recursion — found in the local scope, found in an override file, or absent
from every source (the placeholder step); but any reference that reaches the
root-default or module-argument steps recurses, and already a single
variable whose root default is its own reference recurses unboundedly, not
only indirect multi-variable cycles. -/
theorem resolve_termination_characterization (fuel : Nat) (s : List Char) (vars : Dict)
    (tfvars_files : List Dict) (rootv rootm : Dict) :
    ((∀ m ∈ findVarRefs s, localOrAbsent m vars tfvars_files rootv rootm = true) →
      ∃ r, resolve_interpolation fuel (HVal.str s) vars tfvars_files rootv rootm = some r) ∧
    (∀ f2 : Nat, resolve_interpolation f2 (HVal.str (mkRef ("a"))) [] []
      [(("a" : String), HVal.str (mkRef ("a")))] [] = none) := by
  constructor
  · intro h
    rw [resolve_interpolation]
    simp only [resolveCore]
    obtain ⟨r, hr⟩ := substLoop_isSome (findVarRefs s) s
      (fun m hm => get_variable_value_localOrAbsent (h m hm))
    rw [hr]
    exact ⟨HVal.str r, rfl⟩
  · exact cyc_resolve_none

/-- Witness for C3: a string referencing a locally defined name resolves at
recursion depth zero, and the cyclic root default yields no result at depth
seven. -/
theorem resolve_termination_witness :
    (∃ r, resolve_interpolation 0 (HVal.str (mkRef ("q")))
      [(("q" : String), HVal.num 7)] [] [] [] = some r) ∧
    resolve_interpolation 7 (HVal.str (mkRef ("a"))) [] []
      [(("a" : String), HVal.str (mkRef ("a")))] [] = none := by
  constructor
  · exact (resolve_termination_characterization 0 (mkRef ("q"))
      [(("q" : String), HVal.num 7)] [] [] []).1 (by decide)
  · exact (resolve_termination_characterization 0 [] [] [] [] []).2 7

/-- C4 counterexample: the claim that later matches are not applied to
substitutions made by earlier matches is false.  For the string made of the
two references a then b, with the local value of a being the reference text
for b and b being the digit 2, the replacement for a introduces a second
b-reference into the string, and the later b-match substitutes BOTH
occurrences: the result is the two-character string 22, in which no
b-reference text survives, where independent processing would leave the
introduced b-reference intact. -/
theorem later_matches_see_substitutions_cx :
    resolve_interpolation 1 (HVal.str (mkRef ("a") ++ mkRef ("b")))
      [(("a" : String), HVal.str (mkRef ("b"))), (("b" : String), HVal.str ['2'])]
      [] [] [] = some (HVal.str ['2', '2']) ∧
    containsSeg (mkRef ("b")) ['2', '2'] = false := by
  constructor
  · rfl
  · rfl

/-- C4 amended: the pattern set is computed up front from the original string
and each name of it is processed once in order; but each substitution is
applied to the current, already-substituted string and replaces every
occurrence of that name's pattern in it, so reference text introduced by an
earlier substitution is itself substituted whenever its name occurs among the
up-front matches still to be processed.  For names a then b with the local
value of a being the b-reference text, the resolved string is the textual
form of the b-value twice. -/
theorem substitution_rescans_current_string (fuel : Nat) (a b : String) (vb : HVal)
    (vars : Dict) (tfvars_files : List Dict) (rootv rootm : Dict)
    (ha : isIdentName a = true) (hb : isIdentName b = true) (hab : a ≠ b)
    (hla : lookup? a vars = some (HVal.str (mkRef b)))
    (hlb : lookup? b vars = some vb) :
    findVarRefs (mkRef a ++ mkRef b) = [a, b] ∧
    resolve_interpolation fuel (HVal.str (mkRef a ++ mkRef b)) vars tfvars_files rootv rootm =
      some (HVal.str (pyStr vb ++ pyStr vb)) := by
  have hfind : findVarRefs (mkRef a ++ mkRef b) = [a, b] := by
    rw [findVarRefs_mkRef_append ha, findVarRefs_mkRef hb]
  refine ⟨hfind, ?_⟩
  have hga : get_variable_value fuel a vars tfvars_files rootv rootm =
      some (HVal.str (mkRef b)) := by
    rw [get_variable_value]
    simp only [hla]
  have hgb : get_variable_value fuel b vars tfvars_files rootv rootm = some vb := by
    rw [get_variable_value]
    simp only [hlb]
  rw [resolve_interpolation]
  simp only [resolveCore, hfind, substLoop, hga, hgb]
  have h1 : replaceAll (mkRef a ++ mkRef b) (mkRef a) (pyStr (HVal.str (mkRef b))) =
      mkRef b ++ mkRef b := by
    have hps : pyStr (HVal.str (mkRef b)) = mkRef b := rfl
    rw [hps, replaceAll_ref_self]
    have h2 := replaceAll_ref_other ha hb hab [] (mkRef b)
    rw [List.append_nil] at h2
    have h3 : replaceAll ([] : List Char) (mkRef a) (mkRef b) = [] := rfl
    rw [h3, List.append_nil] at h2
    rw [h2]
  rw [h1]
  have h4 : replaceAll (mkRef b ++ mkRef b) (mkRef b) (pyStr vb) = pyStr vb ++ pyStr vb := by
    rw [replaceAll_ref_self, replaceAll_mkRef_self]
  rw [h4]
  rfl

/-- Witness for C4: names a and b with b carrying the digit 9: the original
string scans to the two matches and resolves to 99. -/
theorem substitution_rescans_witness :
    findVarRefs (mkRef ("a") ++ mkRef ("b")) = [("a" : String), ("b" : String)] ∧
    resolve_interpolation 0 (HVal.str (mkRef ("a") ++ mkRef ("b")))
      [(("a" : String), HVal.str (mkRef ("b"))), (("b" : String), HVal.str ['9'])]
      [] [] [] = some (HVal.str (['9'] ++ ['9'])) :=
  substitution_rescans_current_string 0 ("a") ("b") (HVal.str ['9'])
    [(("a" : String), HVal.str (mkRef ("b"))), (("b" : String), HVal.str ['9'])]
    [] [] [] (by decide) (by decide) (by decide) rfl rfl

/-- C10 counterexample: a local value substituted for a reference is NOT
always emitted with its embedded reference text intact: for the string of
references x then y, the local value of x is the y-reference text; after the
x-substitution the later y-match replaces that introduced text as well, so
the y-reference text from the local value of x does not survive in the
output. -/
theorem local_value_not_emitted_intact_cx :
    resolve_interpolation 1 (HVal.str (mkRef ("x") ++ mkRef ("y")))
      [(("x" : String), HVal.str (mkRef ("y"))), (("y" : String), HVal.str ['5'])]
      [] [] [] = some (HVal.str ['5', '5']) ∧
    containsSeg (mkRef ("y")) ['5', '5'] = false := by
  constructor
  · rfl
  · rfl

/-- C10 amended: a value found in the local scope mapping or in an override
file is substituted as-is, without recursive resolution — a string value that
is exactly one reference resolves to the raw stored value, embedded reference
text included — while a value obtained from root defaults or root module
arguments is passed back through the resolver; the as-is substituted text
survives in the output only as long as no later up-front match substitutes
into it (see the counterexample). -/
theorem local_values_substituted_verbatim (fuel : Nat) (n : String) (w : List Char)
    (vars : Dict) (tfvars_files : List Dict) (rootv rootm : Dict) (v : HVal)
    (hid : isIdentName n = true) :
    (lookup? n vars = some (HVal.str w) →
      resolve_interpolation fuel (HVal.str (mkRef n)) vars tfvars_files rootv rootm =
        some (HVal.str w)) ∧
    (lookup? n vars = none → firstTfvars n tfvars_files = some (HVal.str w) →
      resolve_interpolation fuel (HVal.str (mkRef n)) vars tfvars_files rootv rootm =
        some (HVal.str w)) ∧
    (lookup? n vars = none → firstTfvars n tfvars_files = none →
      lookup? n rootv = some v →
      get_variable_value (fuel + 1) n vars tfvars_files rootv rootm =
        resolve_interpolation fuel v vars tfvars_files rootv rootm) ∧
    (lookup? n vars = none → firstTfvars n tfvars_files = none →
      lookup? n rootv = none → lookup? n rootm = some v →
      get_variable_value (fuel + 1) n vars tfvars_files rootv rootm =
        resolve_interpolation fuel v vars tfvars_files rootv rootm) := by
  refine ⟨?_, ?_, ?_, ?_⟩
  · intro h1
    have hg : get_variable_value fuel n vars tfvars_files rootv rootm = some (HVal.str w) := by
      rw [get_variable_value]
      simp only [h1]
    exact resolve_single_ref hid hg
  · intro h1 h2
    have hg : get_variable_value fuel n vars tfvars_files rootv rootm = some (HVal.str w) := by
      rw [get_variable_value]
      simp only [h1, h2]
    exact resolve_single_ref hid hg
  · intro h1 h2 h3
    rw [get_variable_value]
    simp only [h1, h2, h3]
    rfl
  · intro h1 h2 h3 h4
    rw [get_variable_value]
    simp only [h1, h2, h3, h4]
    rfl

/-- Witness for C10: a local value that is itself reference text for the
undefined name q is emitted verbatim, reference text intact. -/
theorem local_values_verbatim_witness :
    resolve_interpolation 0 (HVal.str (mkRef ("x")))
      [(("x" : String), HVal.str (mkRef ("q")))] [] [] [] =
      some (HVal.str (mkRef ("q"))) :=
  (local_values_substituted_verbatim 0 ("x") (mkRef ("q"))
    [(("x" : String), HVal.str (mkRef ("q")))] [] [] [] (HVal.num 0) (by decide)).1 rfl

/-! ## Inversion of get_resource_info -/

theorem get_resource_info_inv {fuel : Nat} {rt rn : String}
    {instances : List (String × Dict)} {vars : Dict} {tfvars_files : List Dict}
    {rootv rootm : Dict} {rec : ResourceInfo}
    (h : get_resource_info fuel rt rn instances vars tfvars_files rootv rootm = some rec) :
    rec.resource_type = format_resource_type rt ∧
    rec.resource_name = (if rn = "this" then "" else rn) ∧
    (rec.instance_type = none ∨ ∃ inst v, lookup? rn instances = some inst ∧
      resolve_interpolation fuel
        ((lookup? (if rt = "aws_instance" then "instance_type" else "instance_class") inst).getD
          (HVal.str nA)) vars tfvars_files rootv rootm = some v ∧
      rec.instance_type = some v) ∧
    (rec.cpu = none ∨ ∃ inst v, lookup? rn instances = some inst ∧
      resolve_interpolation fuel ((lookup? ("cpu") inst).getD (HVal.str nA))
        vars tfvars_files rootv rootm = some v ∧
      rec.cpu = some v) ∧
    (rec.memory = none ∨ ∃ inst v, lookup? rn instances = some inst ∧
      resolve_interpolation fuel ((lookup? ("memory") inst).getD (HVal.str nA))
        vars tfvars_files rootv rootm = some v ∧
      rec.memory = some v) ∧
    (rec.storage_size = none ∨ ∃ inst v, lookup? rn instances = some inst ∧
      resolve_interpolation fuel ((lookup? ("allocated_storage") inst).getD (HVal.str nA))
        vars tfvars_files rootv rootm = some v ∧
      rec.storage_size = some v) := by
  simp only [get_resource_info] at h
  by_cases h1 : rt = "aws_instance" ∨ rt = "aws_db_instance"
  · simp only [if_pos h1] at h
    cases hk : lookup? rn instances with
    | none => simp only [hk] at h; exact absurd h (by simp)
    | some inst =>
      simp only [hk] at h
      cases hres1 : resolve_interpolation fuel
          ((lookup? (if rt = "aws_instance" then "instance_type" else "instance_class") inst).getD
            (HVal.str nA)) vars tfvars_files rootv rootm with
      | none => simp only [hres1] at h; exact absurd h (by simp)
      | some v1 =>
        simp only [hres1] at h
        by_cases h2 : rt = "aws_ecs_task_definition"
        · exfalso
          rcases h1 with h1 | h1 <;> rw [h1] at h2 <;> exact absurd h2 (by decide)
        · simp only [if_neg h2] at h
          by_cases h3 : rt = "aws_db_instance"
          · simp only [if_pos h3] at h
            cases hres3 : resolve_interpolation fuel
                ((lookup? ("allocated_storage") inst).getD (HVal.str nA))
                vars tfvars_files rootv rootm with
            | none => simp only [hres3] at h; exact absurd h (by simp)
            | some v3 =>
              simp only [hres3, Option.some_inj] at h
              subst h
              refine ⟨rfl, rfl, ?_, ?_, ?_, ?_⟩
              · exact Or.inr ⟨inst, v1, rfl, hres1, rfl⟩
              · exact Or.inl rfl
              · exact Or.inl rfl
              · exact Or.inr ⟨inst, v3, rfl, hres3, rfl⟩
          · simp only [if_neg h3] at h
            rw [Option.some_inj] at h
            subst h
            refine ⟨rfl, rfl, ?_, ?_, ?_, ?_⟩
            · exact Or.inr ⟨inst, v1, rfl, hres1, rfl⟩
            · exact Or.inl rfl
            · exact Or.inl rfl
            · exact Or.inl rfl
  · simp only [if_neg h1] at h
    by_cases h2 : rt = "aws_ecs_task_definition"
    · simp only [if_pos h2] at h
      cases hk : lookup? rn instances with
      | none => simp only [hk] at h; exact absurd h (by simp)
      | some inst =>
        simp only [hk] at h
        cases hresc : resolve_interpolation fuel ((lookup? ("cpu") inst).getD (HVal.str nA))
            vars tfvars_files rootv rootm with
        | none => simp only [hresc] at h; exact absurd h (by simp)
        | some vc =>
          simp only [hresc] at h
          cases hresm : resolve_interpolation fuel
              ((lookup? ("memory") inst).getD (HVal.str nA)) vars tfvars_files rootv rootm with
          | none => simp only [hresm] at h; exact absurd h (by simp)
          | some vm =>
            simp only [hresm] at h
            have h3 : ¬ rt = "aws_db_instance" := by
              rw [h2]
              decide
            simp only [if_neg h3, Option.some_inj] at h
            subst h
            refine ⟨rfl, rfl, ?_, ?_, ?_, ?_⟩
            · exact Or.inl rfl
            · exact Or.inr ⟨inst, vc, rfl, hresc, rfl⟩
            · exact Or.inr ⟨inst, vm, rfl, hresm, rfl⟩
            · exact Or.inl rfl
    · simp only [if_neg h2] at h
      have h3 : ¬ rt = "aws_db_instance" := fun hdb => h1 (Or.inr hdb)
      simp only [if_neg h3, Option.some_inj] at h
      subst h
      exact ⟨rfl, rfl, Or.inl rfl, Or.inl rfl, Or.inl rfl, Or.inl rfl⟩

/-- C9: the resource name field of every extracted record equals the instance
name, except when the instance name is exactly the literal placeholder this,
in which case the field is the empty string. -/
theorem resource_name_this_empty (fuel : Nat) (rt rn : String)
    (instances : List (String × Dict)) (vars : Dict) (tfvars_files : List Dict)
    (rootv rootm : Dict) (rec : ResourceInfo)
    (h : get_resource_info fuel rt rn instances vars tfvars_files rootv rootm = some rec) :
    rec.resource_name = (if rn = "this" then "" else rn) :=
  (get_resource_info_inv h).2.1

/-- Witness for C9: a record extracted for an instance named this carries the
empty string as its resource name. -/
theorem resource_name_this_witness :
    (ResourceInfo.resource_name ⟨"AWS S3 Bucket", "", none, none, none, none⟩) =
      (if ("this" : String) = "this" then "" else "this") :=
  resource_name_this_empty 0 ("aws_s3_bucket") ("this") [] [] [] [] []
    ⟨"AWS S3 Bucket", "", none, none, none, none⟩ rfl

/-- Every raw attribute drawn from a well-formed instance dict (or defaulted
to the N/A placeholder) satisfies attrWF. -/
theorem attrWF_getD {instances : List (String × Dict)} {rn : String} {inst : Dict}
    (hattr : ∀ i ∈ instances, ∀ p ∈ i.2, attrWF p.2 = true)
    (hk : lookup? rn instances = some inst) (key : String) :
    attrWF ((lookup? key inst).getD (HVal.str nA)) = true := by
  cases hl : lookup? key inst with
  | some w =>
    simp only [hl, Option.getD_some]
    exact hattr (rn, inst) (lookup?_mem hk) (key, w) (lookup?_mem hl)
  | none =>
    simp only [hl, Option.getD_none]
    decide

/-- C2 counterexample: a record produced by extraction whose resolvable
attribute still contains unresolved reference syntax, without any cyclic or
self-referential definition: the local default of size is the reference text
for the undefined name other; the chain returns local values verbatim, so the
extracted instance-type attribute is that reference text, on which the scan
still finds a match. -/
theorem resource_record_unresolved_cx :
    get_resource_info 2 ("aws_instance") ("web")
      [(("web" : String), [(("instance_type" : String), HVal.str (mkRef ("size")))])]
      [(("size" : String), HVal.str (mkRef ("other")))] [] [] [] =
      some ⟨"AWS Instance", "web", some (HVal.str (mkRef ("other"))), none, none, none⟩ ∧
    refFree (HVal.str (mkRef ("other"))) = false := by
  constructor
  · rfl
  · rfl

/-- C2 amended: every resolvable attribute of an extracted record is free of
unresolved reference syntax PROVIDED the values reachable through the four
scope sources are themselves free of interpolation syntax (no dollar
characters, so nothing substituted verbatim can reintroduce a reference) and
every dollar in a raw string attribute begins a complete reference (so no
stray fragment can combine with substituted text into a new reference).
Without the first proviso the invariant fails even acyclically, as the
counterexample shows. -/
theorem resource_record_no_unresolved (fuel : Nat) (rt rn : String)
    (instances : List (String × Dict)) (vars : Dict) (tfvars_files : List Dict)
    (rootv rootm : Dict) (rec : ResourceInfo)
    (hsc : ScopesDollarFree vars tfvars_files rootv rootm)
    (hattr : ∀ i ∈ instances, ∀ p ∈ i.2, attrWF p.2 = true)
    (h : get_resource_info fuel rt rn instances vars tfvars_files rootv rootm = some rec) :
    (∀ v, rec.instance_type = some v → refFree v = true) ∧
    (∀ v, rec.cpu = some v → refFree v = true) ∧
    (∀ v, rec.memory = some v → refFree v = true) ∧
    (∀ v, rec.storage_size = some v → refFree v = true) := by
  obtain ⟨_, _, h3, h4, h5, h6⟩ := get_resource_info_inv h
  refine ⟨?_, ?_, ?_, ?_⟩
  · intro v hv
    rcases h3 with hnone | ⟨inst, v2, hk, hres, heq⟩
    · rw [hnone] at hv
      exact absurd hv (by simp)
    · rw [heq, Option.some_inj] at hv
      subst hv
      exact resolve_attr_noRefs hsc (attrWF_getD hattr hk _) hres
  · intro v hv
    rcases h4 with hnone | ⟨inst, v2, hk, hres, heq⟩
    · rw [hnone] at hv
      exact absurd hv (by simp)
    · rw [heq, Option.some_inj] at hv
      subst hv
      exact resolve_attr_noRefs hsc (attrWF_getD hattr hk _) hres
  · intro v hv
    rcases h5 with hnone | ⟨inst, v2, hk, hres, heq⟩
    · rw [hnone] at hv
      exact absurd hv (by simp)
    · rw [heq, Option.some_inj] at hv
      subst hv
      exact resolve_attr_noRefs hsc (attrWF_getD hattr hk _) hres
  · intro v hv
    rcases h6 with hnone | ⟨inst, v2, hk, hres, heq⟩
    · rw [hnone] at hv
      exact absurd hv (by simp)
    · rw [heq, Option.some_inj] at hv
      subst hv
      exact resolve_attr_noRefs hsc (attrWF_getD hattr hk _) hres

/-- Witness for C2: with a dollar-free local scope the resolved instance-type
attribute t2 carries no reference syntax. -/
theorem resource_record_no_unresolved_witness :
    refFree (HVal.str ['t', '2']) = true :=
  (resource_record_no_unresolved 1 ("aws_instance") ("web")
    [(("web" : String), [(("instance_type" : String), HVal.str (mkRef ("size")))])]
    [(("size" : String), HVal.str ['t', '2'])] [] [] []
    ⟨"AWS Instance", "web", some (HVal.str ['t', '2']), none, none, none⟩
    (by unfold ScopesDollarFree; refine ⟨?_, ?_, ?_, ?_⟩ <;> decide)
    (by decide) rfl).1 (HVal.str ['t', '2']) rfl

/-- C5 counterexample: a malformed variables declaration file is NOT caught
at the file level: parse_variables runs outside the try block of the
extractor loop, so its error aborts the whole run — here the second file
would have contributed a record, but the run ends with the error instead of
a partial result. -/
theorem variables_file_error_fatal_cx :
    get_resources 1
      [⟨⟨some (Except.error ("boom")), []⟩,
        Except.ok [[(("aws_instance" : String), [(("web" : String), ([] : Dict))])]]⟩,
       ⟨⟨none, []⟩,
        Except.ok [[(("aws_instance" : String), [(("db2" : String), ([] : Dict))])]]⟩]
      [] [] = some (Except.error ("boom")) := rfl

/-- C5 amended: a parse failure of a configuration file itself is caught at
the file level: that file's resources are omitted and the remaining files are
processed as if it were absent.  But a parse failure of a directory's
variables declaration file is raised outside the per-file handler and is
fatal: the run stops with that error and no further file is processed. -/
theorem parse_error_handling_split (fuel : Nat) (f : TFFile) (rest : List TFFile)
    (root_variables root_main_tf : Dict) :
    (∀ e vars tfv, f.parsed = Except.error e →
      parse_variables f.dir = Except.ok (vars, tfv) →
      get_resources fuel (f :: rest) root_variables root_main_tf =
        get_resources fuel rest root_variables root_main_tf) ∧
    (∀ e, parse_variables f.dir = Except.error e →
      get_resources fuel (f :: rest) root_variables root_main_tf =
        some (Except.error e)) := by
  constructor
  · intro e vars tfv hp hv
    rw [get_resources]
    simp only [hv, hp]
  · intro e hv
    rw [get_resources]
    simp only [hv]

/-- Witness for C5: a file whose own parse fails is skipped and the run
continues to the empty tail; a bad variables declaration file fails the
run. -/
theorem parse_error_handling_witness :
    get_resources 0 [⟨⟨none, []⟩, Except.error ("syntax")⟩] [] [] =
      get_resources 0 [] [] [] ∧
    get_resources 0 [⟨⟨some (Except.error ("bad")), []⟩, Except.ok []⟩] [] [] =
      some (Except.error ("bad")) := by
  constructor
  · exact (parse_error_handling_split 0 ⟨⟨none, []⟩, Except.error ("syntax")⟩ [] [] []).1
      ("syntax") [] [] rfl rfl
  · exact (parse_error_handling_split 0 ⟨⟨some (Except.error ("bad")), []⟩, Except.ok []⟩
      [] [] []).2 ("bad") rfl
